import Mathlib

/-!
# WarpX initialisation (`Source/WarpXInitData.cpp`)

A shallow embedding of `WarpX::InitData` and `WarpX::InitOpenbc`.

* C++ `int` values are `Int` (box coordinates, map entries) or `Nat` (the worker
  count `nprocs` and the worker id `myproc`, which MPI hands out as
  `nprocs ≥ 1`, `0 ≤ myproc < nprocs`); worker counts stay far below the `int`
  range, so no wrap-around is modelled.
* `Vector<int>` is `List Int`; a checked element access is `Option`.
* The build considered is the one `InitOpenbc` compiles in: `USE_OPENBC_POISSON`
  and `BL_USE_MPI` defined, `AMREX_SPACEDIM == 3`.
* The copy engine `FabArray::copy` with its periodic translations, and the Fortran
  kernel `warpx_compute_E`, have no code in the sources; they are described from
  the specification, and the definitions concerned say so.
* Field values are exact: any commutative additive monoid for the copies, `ℚ` for
  the stencil.
-/

namespace WarpX

/-! ## Index space: `IntVect`, `IndexType`, `Box`, `BoxList` -/

/-- A point of the three-dimensional integer index space (`amrex::IntVect`). -/
structure IntVect where
  x : Int
  y : Int
  z : Int
  deriving DecidableEq, Repr

/-- Componentwise sum of two index vectors. -/
def IntVect.add (a b : IntVect) : IntVect := ⟨a.x + b.x, a.y + b.y, a.z + b.z⟩

/-- Centring of a box per axis (`amrex::IndexType`): `true` is NODE, `false` is CELL. -/
structure IndexType where
  nodeX : Bool
  nodeY : Bool
  nodeZ : Bool
  deriving DecidableEq, Repr

/-- All three axes node-centred (`IndexType::TheNodeType()`). -/
def IndexType.TheNodeType : IndexType := ⟨true, true, true⟩

/-- All three axes cell-centred (`IndexType::TheCellType()`). -/
def IndexType.TheCellType : IndexType := ⟨false, false, false⟩

/-- An axis-aligned index box with inclusive corners (`amrex::Box`). -/
structure Box where
  smallend : IntVect
  bigend : IntVect
  btype : IndexType
  deriving DecidableEq, Repr

/-- Whether point `p` lies in the box (`Box::contains`). -/
def Box.contains (b : Box) (p : IntVect) : Bool :=
  decide (b.smallend.x ≤ p.x ∧ p.x ≤ b.bigend.x ∧
          b.smallend.y ≤ p.y ∧ p.y ≤ b.bigend.y ∧
          b.smallend.z ≤ p.z ∧ p.z ≤ b.bigend.z)

/-- The box enlarged by `n` points on every side (`amrex::grow`). -/
def Box.grow (b : Box) (n : Nat) : Box :=
  { smallend := ⟨b.smallend.x - n, b.smallend.y - n, b.smallend.z - n⟩
    bigend := ⟨b.bigend.x + n, b.bigend.y + n, b.bigend.z + n⟩
    btype := b.btype }

/-- Number of points along each axis (`Box::length`), the shape of a dense buffer. -/
def Box.length (b : Box) : Int × Int × Int :=
  (b.bigend.x - b.smallend.x + 1, b.bigend.y - b.smallend.y + 1,
   b.bigend.z - b.smallend.z + 1)

/-- The node-centred box around a box (`Box::surroundingNodes`): every cell-centred
axis gains one point at its upper end and becomes node-centred. -/
def Box.surroundingNodes (b : Box) : Box :=
  { smallend := b.smallend
    bigend := ⟨if b.btype.nodeX then b.bigend.x else b.bigend.x + 1,
               if b.btype.nodeY then b.bigend.y else b.bigend.y + 1,
               if b.btype.nodeZ then b.bigend.z else b.bigend.z + 1⟩
    btype := IndexType.TheNodeType }

/-- The integers `lo, lo+1, ..., hi` in ascending order (empty when `hi < lo`). -/
def rangeZ (lo hi : Int) : List Int :=
  (List.range (hi + 1 - lo).toNat).map fun (n : Nat) => lo + (n : Int)

/-- Every point of a box, x slowest and z fastest. -/
def Box.points (b : Box) : List IntVect :=
  ((rangeZ b.smallend.x b.bigend.x) ×ˢ
    ((rangeZ b.smallend.y b.bigend.y) ×ˢ (rangeZ b.smallend.z b.bigend.z))).map
    fun t => ⟨t.1, t.2.1, t.2.2⟩

/-- A list of boxes sharing one index type (`amrex::BoxList`). -/
structure BoxList where
  btype : IndexType
  boxes : List Box
  deriving DecidableEq, Repr

/-- Appending a box (`BoxList::push_back`), which asserts that the box has the
list's index type. -/
def BoxList.push_back (bl : BoxList) (bn : Box) : Option BoxList :=
  if bl.btype = bn.btype then some { bl with boxes := bl.boxes ++ [bn] } else none

/-! ## `InitOpenbc`: gather, box list, processor map -/

/-- The six integers a worker contributes to the gather (`int lohi[6]`): the low
corner, then the high corner, of the box `warpx_openbc_decompose` gave it. -/
structure Lohi where
  lo_x : Int
  lo_y : Int
  lo_z : Int
  hi_x : Int
  hi_y : Int
  hi_z : Int
  deriving DecidableEq, Repr

/-- The send buffer of one worker, in memory order. -/
def Lohi.toList (t : Lohi) : List Int := [t.lo_x, t.lo_y, t.lo_z, t.hi_x, t.hi_y, t.hi_z]

/-- What `MPI_Allgather` delivers when every worker sends its six integers: the
blocks of all workers, worker id ascending. -/
def gathered (tuples : List Lohi) : List Int := (tuples.map Lohi.toList).flatten

/-- The receive buffer after the collective has stored the integers `delivered`
from its start; positions it did not write keep their old content. -/
def storeInto (buf delivered : List Int) : List Int :=
  delivered.take buf.length ++ buf.drop delivered.length

/-- The buffer `alllohi` of `InitOpenbc` after the gather:
`Vector<int> alllohi(6*nprocs,100000)` overwritten by the collective. -/
def alllohi (nprocs : Nat) (delivered : List Int) : List Int :=
  storeInto (List.replicate (6 * nprocs) 100000) delivered

/-- The box pushed for worker `i`:
`Box(IntVect(a[6i],a[6i+1],a[6i+2]), IntVect(a[6i+3],a[6i+4],a[6i+5]), TheNodeType())`,
each element access checked. -/
def boxOfWorker (a : List Int) (i : Nat) : Option Box := do
  let l0 ← a[6 * i]?
  let l1 ← a[6 * i + 1]?
  let l2 ← a[6 * i + 2]?
  let h0 ← a[6 * i + 3]?
  let h1 ← a[6 * i + 4]?
  let h2 ← a[6 * i + 5]?
  pure ⟨⟨l0, l1, l2⟩, ⟨h0, h1, h2⟩, IndexType.TheNodeType⟩

/-- The loop `for (int i = 0; i < nprocs; ++i) bl.push_back(...)`, with `todo`
iterations left and `i` the current index. -/
def pushLoop (a : List Int) : (todo : Nat) → (i : Nat) → BoxList → Option BoxList
  | 0, _, bl => some bl
  | todo + 1, i, bl => do
    let b ← boxOfWorker a i
    let bl1 ← bl.push_back b
    pushLoop a todo (i + 1) bl1

/-- The box list `bl` of `InitOpenbc`, from which `BoxArray ba{bl}` is made:
`BoxList bl{IndexType::TheNodeType()}` followed by the loop over the workers. -/
def buildBoxList (nprocs : Nat) (a : List Int) : Option BoxList :=
  pushLoop a nprocs 0 ⟨IndexType.TheNodeType, []⟩

/-- Filling a range with `v, v+1, v+2, ...` (`std::iota`). -/
def iota : List Int → Int → List Int
  | [], _ => []
  | _ :: xs, v => v :: iota xs (v + 1)

/-- Assigning to the last element (`vec.back() = v`); nothing to assign in an
empty vector. -/
def setBack : List Int → Int → List Int
  | [], _ => []
  | [_], v => [v]
  | x :: y :: xs, v => x :: setBack (y :: xs) v

/-- The processor map of `InitOpenbc`:
`Vector<int> iprocmap(nprocs+1); std::iota(begin, end, 0); iprocmap.back() = myproc;`. -/
def iprocmap (nprocs myproc : Nat) : List Int :=
  setBack (iota (List.replicate (nprocs + 1) 0) 0) (myproc : Int)

/-! ## Fields on a decomposition: `MultiFab`, `Geometry`, the copy calls -/

/-- A field stored box by box (`amrex::MultiFab`): the boxes, the owner of each
box, the number of components, the number of ghost layers, and the value held
at each point of each box. One component is carried, component 0: every field
of `InitOpenbc` is built with one component and both copies move component 0
onto component 0. -/
structure MultiFab (R : Type) where
  boxarray : List Box
  distributionMap : List Int
  ncomp : Nat
  ngrow : Nat
  fab : Nat → IntVect → R

/-- One box of a field with its data (`amrex::FArrayBox`): the box the buffer
spans, the number of components, the values. -/
structure FArrayBox (R : Type) where
  box : Box
  ncomp : Nat
  data : IntVect → R

/-- The storage box of box `K` of a field: the box grown by the ghost layers
(`MultiFab::fabbox`). -/
def MultiFab.fabbox {R : Type} (m : MultiFab R) (K : Nat) : Option Box :=
  (m.boxarray[K]?).map fun b => b.grow m.ngrow

/-- Access `mf[K]` as worker `myproc` (`FabArray::operator[]`): defined when `K`
indexes a box of the field and that box is stored on the calling worker. -/
def MultiFab.get {R : Type} (m : MultiFab R) (myproc : Nat) (K : Nat) : Option (FArrayBox R) :=
  match m.fabbox K, m.distributionMap[K]? with
  | some b, some owner => if owner = (myproc : Int) then some ⟨b, m.ncomp, m.fab K⟩ else none
  | _, _ => none

/-- Assigning one value to every point, ghost points included (`MultiFab::setVal`). -/
def MultiFab.setVal {R : Type} (m : MultiFab R) (v : R) : MultiFab R :=
  { m with fab := fun _ _ => v }

/-- The default-constructed box (`Box()`), which is empty. -/
def Box.default : Box := ⟨⟨1, 1, 1⟩, ⟨0, 0, 0⟩, IndexType.TheCellType⟩

/-- The sum of the values of a field over its boxes grown by `ng` layers, box by
box (`ng = 0`: valid points only; `ng = ngrow`: ghost points included). -/
def MultiFab.total {R : Type} [AddCommMonoid R] (m : MultiFab R) (ng : Nat) : R :=
  ((List.range m.boxarray.length).map fun j =>
    (((m.boxarray.getD j Box.default).grow ng).points.map (m.fab j)).sum).sum

/-- The level geometry as far as `InitOpenbc` reads it (`amrex::Geometry`): the
index domain and the per-axis periodicity flags. -/
structure Geometry where
  domain : Box
  periodicX : Bool
  periodicY : Bool
  periodicZ : Bool
  deriving DecidableEq, Repr

/-- The period per axis, zero on a non-periodic axis (`amrex::Periodicity`). -/
structure Periodicity where
  period : IntVect
  deriving DecidableEq, Repr

/-- The periodicity of a geometry (`Geometry::periodicity`): the domain length on
each periodic axis, zero elsewhere. -/
def Geometry.periodicity (gm : Geometry) : Periodicity :=
  ⟨⟨if gm.periodicX then gm.domain.length.1 else 0,
    if gm.periodicY then gm.domain.length.2.1 else 0,
    if gm.periodicZ then gm.domain.length.2.2 else 0⟩⟩

/-- The per-axis periodicity flags of a periodicity (`Periodicity::isPeriodic`): an
axis is periodic when its period is not zero. -/
def Periodicity.isPeriodic (p : Periodicity) : Bool × Bool × Bool :=
  (p.period.x != 0, p.period.y != 0, p.period.z != 0)

/-- Modelled from the spec: the translations a periodic copy tries along one axis
(section 6; `amrex::Periodicity` is a library type not in the sources). None but
zero on a non-periodic axis, one domain length either way on a periodic one. -/
def axisShifts (per : Int) : List Int := if per = 0 then [0] else [-per, 0, per]

/-- Modelled from the spec: every translation a periodic copy tries
(`Periodicity::shiftIntVect`, library code not in the sources): the combinations
of the per-axis translations. -/
def Periodicity.shiftIntVect (p : Periodicity) : List IntVect :=
  ((axisShifts p.period.x) ×ˢ ((axisShifts p.period.y) ×ˢ (axisShifts p.period.z))).map
    fun t => ⟨t.1, t.2.1, t.2.2⟩

/-- The combining mode of a copy (`FabArrayBase::CpOp`). -/
inductive CpOp where
  | COPY
  | ADD
  deriving DecidableEq, Repr

/-- The arguments of one `FabArray::copy` call besides source and destination:
`copy(src, scomp, dcomp, ncomp, src_nghost, dst_nghost, period, op)`. -/
structure CopyCall where
  scomp : Nat
  dcomp : Nat
  ncomp : Nat
  src_nghost : Nat
  dst_nghost : Nat
  period : Periodicity
  op : CpOp
  deriving DecidableEq, Repr

/-- The reduction copy of `InitOpenbc`:
`rho_openbc.copy(*rho, 0, 0, 1, rho->nGrow(), 0, gm.periodicity(), FabArrayBase::ADD)`. -/
def reductionCopyCall {R : Type} (rho : MultiFab R) (gm : Geometry) : CopyCall :=
  ⟨0, 0, 1, rho.ngrow, 0, gm.periodicity, CpOp.ADD⟩

/-- The scatter copy of `InitOpenbc`: `phi.copy(phi_openbc, gm.periodicity())`, the
short overload, which stands for
`copy(src, 0, 0, nComp(), 0, 0, period, FabArrayBase::COPY)` with `nComp()` that
of the destination `phi`. -/
def scatterCopyCall {R : Type} (phi : MultiFab R) (gm : Geometry) : CopyCall :=
  ⟨0, 0, phi.ncomp, 0, 0, gm.periodicity, CpOp.COPY⟩

/-- Modelled from the spec: the values a copy brings to the destination point `pt`
(the copy engine is `amrex::FabArray::copy`, a library routine not in the
sources). For every periodic image and every source box whose region, ghost
layers included up to `ng`, holds the translated point, the source value there. -/
def contributions {R : Type} (src : MultiFab R) (ng : Nat) (period : Periodicity)
    (pt : IntVect) : List R :=
  (period.shiftIntVect.map fun s =>
    (List.range src.boxarray.length).filterMap fun i =>
      match src.boxarray[i]? with
      | some b => if (b.grow ng).contains (pt.add s) then some (src.fab i (pt.add s)) else none
      | none => none).flatten

/-- Modelled from the spec: how a destination value and the values brought to it
combine. `ADD` adds them all to what is there; `COPY` overwrites with the value
brought last and leaves the destination alone when nothing is brought. -/
def combine {R : Type} [AddCommMonoid R] : CpOp → R → List R → R
  | CpOp.ADD, d, cs => d + cs.sum
  | CpOp.COPY, d, cs => cs.getLast?.getD d

/-- Modelled from the spec: the copy engine of sections 4.3 and 4.5
(`amrex::FabArray::copy`, a library routine not in the sources). Each point of
each destination box, grown by `dst_nghost`, receives the contributions of the
source combined by the mode of the call; nothing outside is written. -/
def MultiFab.copy {R : Type} [AddCommMonoid R] (dst src : MultiFab R) (c : CopyCall) :
    MultiFab R :=
  { dst with
    fab := fun j pt =>
      match dst.boxarray[j]? with
      | some b =>
        if (b.grow c.dst_nghost).contains pt then
          combine c.op (dst.fab j pt) (contributions src c.src_nghost c.period pt)
        else dst.fab j pt
      | none => dst.fab j pt }

/-- The fields `rho_openbc` and `phi_openbc` of `InitOpenbc`, both
`MultiFab(ba, dm, 1, 0)` on the gathered boxes and the processor map; `memRho`
and `memPhi` are the contents of the fresh buffers. -/
def openbcFields {R : Type} (nprocs myproc : Nat) (a : List Int)
    (memRho memPhi : Nat → IntVect → R) : Option (MultiFab R × MultiFab R) := do
  let bl ← buildBoxList nprocs a
  let dm := iprocmap nprocs myproc
  pure (⟨bl.boxes, dm, 1, 0, memRho⟩, ⟨bl.boxes, dm, 1, 0, memPhi⟩)

/-- The field `rho_openbc` as the reduction copy finds it:
`MultiFab rho_openbc(ba, dm, 1, 0); rho_openbc.setVal(0.0);`. -/
def rhoOpenbcZeroed {R : Type} [AddCommMonoid R] (ba : List Box) (dm : List Int)
    (mem : Nat → IntVect → R) : MultiFab R :=
  (⟨ba, dm, 1, 0, mem⟩ : MultiFab R).setVal 0

/-- The field `rho_openbc` after
`rho_openbc.copy(*rho, 0, 0, 1, rho->nGrow(), 0, gm.periodicity(), FabArrayBase::ADD)`. -/
def reductionCopy {R : Type} [AddCommMonoid R] (ba : List Box) (dm : List Int)
    (mem : Nat → IntVect → R) (rho : MultiFab R) (gm : Geometry) : MultiFab R :=
  (rhoOpenbcZeroed ba dm mem).copy rho (reductionCopyCall rho gm)

/-- The field `phi` after the scatter:
`BoxArray nba = boxArray(lev); nba.surroundingNodes();
MultiFab phi(nba, DistributionMap(lev), 1, 0); phi.copy(phi_openbc, gm.periodicity());`. -/
def scatterCopy {R : Type} [AddCommMonoid R] (phi_openbc : MultiFab R) (grids : List Box)
    (dmap : List Int) (mem : Nat → IntVect → R) (gm : Geometry) : MultiFab R :=
  let phi : MultiFab R := ⟨grids.map Box.surroundingNodes, dmap, 1, 0, mem⟩
  phi.copy phi_openbc (scatterCopyCall phi gm)

/-- The two copies of `InitOpenbc` with the solve left out: the scatter reads the
field the reduction copy produced. -/
def roundTrip {R : Type} [AddCommMonoid R] (nprocs myproc : Nat) (delivered : List Int)
    (grids : List Box) (dmap : List Int) (rho : MultiFab R) (gm : Geometry)
    (memOpenbc memPhi : Nat → IntVect → R) : Option (MultiFab R) := do
  let bl ← buildBoxList nprocs (alllohi nprocs delivered)
  let rho_openbc := reductionCopy bl.boxes (iprocmap nprocs myproc) memOpenbc rho gm
  pure (scatterCopy rho_openbc grids dmap memPhi gm)

/-! ## The stencil of `InitOpenbc` -/

/-- Modelled from the spec: the centred difference of section 4.6 and 6 (the
kernel `warpx_compute_E` is Fortran code that is not in the sources). Per axis,
the coefficient `1/(2*dx)` times the difference of the two samples adjacent to
`p` along that axis. -/
def centredDifference (phi : IntVect → ℚ) (dx : ℚ × ℚ × ℚ) (p : IntVect) : ℚ × ℚ × ℚ :=
  (1 / (2 * dx.1) * (phi ⟨p.x + 1, p.y, p.z⟩ - phi ⟨p.x - 1, p.y, p.z⟩),
   1 / (2 * dx.2.1) * (phi ⟨p.x, p.y + 1, p.z⟩ - phi ⟨p.x, p.y - 1, p.z⟩),
   1 / (2 * dx.2.2) * (phi ⟨p.x, p.y, p.z + 1⟩ - phi ⟨p.x, p.y, p.z - 1⟩))

/-- Whether the stencil at `p` reaches outside the buffer spanning `phiBox`: some
adjacent sample is not stored. -/
def haloLimited (phiBox : Box) (p : IntVect) : Bool :=
  !(phiBox.contains ⟨p.x + 1, p.y, p.z⟩ && phiBox.contains ⟨p.x - 1, p.y, p.z⟩ &&
    phiBox.contains ⟨p.x, p.y + 1, p.z⟩ && phiBox.contains ⟨p.x, p.y - 1, p.z⟩ &&
    phiBox.contains ⟨p.x, p.y, p.z + 1⟩ && phiBox.contains ⟨p.x, p.y, p.z - 1⟩)

/-- Modelled from the spec: the kernel call
`warpx_compute_E(bx.loVect(), bx.hiVect(), phi[mfi], Ex[mfi], Ey[mfi], Ez[mfi], dx)`
(Fortran code that is not in the sources). Every point of `bx` receives the
centred difference of `phi`; a point whose stencil reaches outside the buffer of
`phi` is a contract violation and has no defined value; points outside `bx` keep
their value. -/
def warpx_compute_E (bx : Box) (phi : FArrayBox ℚ) (dx : ℚ × ℚ × ℚ)
    (E : IntVect → ℚ × ℚ × ℚ) (p : IntVect) : Option (ℚ × ℚ × ℚ) :=
  if bx.contains p then
    if haloLimited phi.box p then none else some (centredDifference phi.data dx p)
  else some (E p)

/-- The loop `for (MFIter mfi(phi); mfi.isValid(); ++mfi)` of `InitOpenbc` on worker
`myproc`: for every box of `phi` stored on this worker, the kernel runs over the
valid box `bx = mfi.validbox()` and writes the output field there; boxes of other
workers are not visited. -/
def computeE (myproc : Nat) (phi : MultiFab ℚ) (dx : ℚ × ℚ × ℚ)
    (Efield : Nat → IntVect → ℚ × ℚ × ℚ) (k : Nat) (p : IntVect) : Option (ℚ × ℚ × ℚ) :=
  match phi.boxarray[k]?, phi.get myproc k with
  | some bx, some fab => warpx_compute_E bx fab dx (Efield k) p
  | _, _ => some (Efield k p)

/-! ## `InitData` -/

/-- The field `phi` used to exercise C9: one node box `[0,2]^3` on worker 0 holding
`3*x + 5*y + 7*z` at spacing `1/2`. -/
def stencilSample : MultiFab ℚ :=
  ⟨[⟨⟨0, 0, 0⟩, ⟨2, 2, 2⟩, IndexType.TheNodeType⟩], [0], 1, 0,
    fun _ p => 3 * (0 + (p.x : ℚ) * (1 / 2)) + 5 * (0 + (p.y : ℚ) * (1 / 2))
      + 7 * (0 + (p.z : ℚ) * (1 / 2))⟩

/-- The source field used to refute C6 as stated: two node boxes `[0,1]x[0,1]x[0,1]`
and `[1,2]x[0,1]x[0,1]` on worker 0 with one ghost layer; box 0 holds the value 1
at its ghost node `(2,0,0)`, inside the domain, and at its ghost node `(-1,0,0)`,
outside the domain; every other value is 0. -/
def conservationSample : MultiFab Int :=
  ⟨[⟨⟨0, 0, 0⟩, ⟨1, 1, 1⟩, IndexType.TheNodeType⟩, ⟨⟨1, 0, 0⟩, ⟨2, 1, 1⟩, IndexType.TheNodeType⟩],
    [0, 0], 1, 1,
    fun i pt => if i = 0 ∧ (pt = ⟨2, 0, 0⟩ ∨ pt = ⟨-1, 0, 0⟩) then 1 else 0⟩

/-- The geometry used to refute C6 as stated: the cell domain `[0,1]x[0,0]x[0,0]`,
no periodic axis. -/
def conservationGeometry : Geometry :=
  ⟨⟨⟨0, 0, 0⟩, ⟨1, 0, 0⟩, IndexType.TheCellType⟩, false, false, false⟩

/-- The source field used to exercise C6, amended: one node box `[0,1]^3` on worker 0,
no ghost layer, holding `x + 2*y + 4*z`. -/
def conservedSample : MultiFab Int :=
  ⟨[⟨⟨0, 0, 0⟩, ⟨1, 1, 1⟩, IndexType.TheNodeType⟩], [0], 1, 0,
    fun _ pt => pt.x + 2 * pt.y + 4 * pt.z⟩

/-- The primary field used to exercise C7: one node box `[0,1]^3` on worker 0 with
one ghost layer, holding `100 + x + 2*y + 4*z`. -/
def roundTripSample : MultiFab Int :=
  ⟨[⟨⟨0, 0, 0⟩, ⟨1, 1, 1⟩, IndexType.TheNodeType⟩], [0], 1, 1,
    fun _ pt => 100 + pt.x + 2 * pt.y + 4 * pt.z⟩

/-! ## Auxiliary descriptions used by the statements -/

/-- The box whose corners are the six integers of block `i` of `a`, absent
entries read as zero: what `boxOfWorker` returns whenever the block is in range. -/
def boxAt (a : List Int) (i : Nat) : Box :=
  ⟨⟨a.getD (6 * i) 0, a.getD (6 * i + 1) 0, a.getD (6 * i + 2) 0⟩,
   ⟨a.getD (6 * i + 3) 0, a.getD (6 * i + 4) 0, a.getD (6 * i + 5) 0⟩,
   IndexType.TheNodeType⟩

/-- The node-typed box a worker's six integers describe. -/
def Lohi.box (t : Lohi) : Box :=
  ⟨⟨t.lo_x, t.lo_y, t.lo_z⟩, ⟨t.hi_x, t.hi_y, t.hi_z⟩, IndexType.TheNodeType⟩

/-- The six corner integers of a box, low corner first. -/
def Box.coords (b : Box) : List Int :=
  [b.smallend.x, b.smallend.y, b.smallend.z, b.bigend.x, b.bigend.y, b.bigend.z]

/-! ## Lemmas on the processor map -/

theorem iota_length (xs : List Int) (v : Int) : (iota xs v).length = xs.length := by
  induction xs generalizing v with
  | nil => rfl
  | cons x xs ih => simp [iota, ih]

theorem iota_getElem? (xs : List Int) (v : Int) (i : Nat) (hi : i < xs.length) :
    (iota xs v)[i]? = some (v + (i : Int)) := by
  induction xs generalizing v i with
  | nil => simp at hi
  | cons x xs ih =>
    cases i with
    | zero => simp [iota]
    | succ k =>
      have hk : k < xs.length := by simpa using hi
      simp only [iota, List.getElem?_cons_succ]
      rw [ih (v + 1) k hk]
      congr 1
      push_cast
      ring

theorem setBack_length (xs : List Int) (v : Int) : (setBack xs v).length = xs.length := by
  induction xs with
  | nil => rfl
  | cons x xs ih =>
    cases xs with
    | nil => rfl
    | cons y ys => simp only [setBack, List.length_cons] at ih ⊢; omega

theorem setBack_getElem?_lt (xs : List Int) (v : Int) (i : Nat) (hi : i + 1 < xs.length) :
    (setBack xs v)[i]? = xs[i]? := by
  induction xs generalizing i with
  | nil => simp at hi
  | cons x xs ih =>
    cases xs with
    | nil => simp at hi
    | cons y ys =>
      cases i with
      | zero => simp [setBack]
      | succ k =>
        have hk : k + 1 < (y :: ys).length := by simpa using hi
        simp only [setBack, List.getElem?_cons_succ]
        exact ih k hk

theorem setBack_getElem?_last (xs : List Int) (v : Int) (n : Nat) (hn : xs.length = n + 1) :
    (setBack xs v)[n]? = some v := by
  induction xs generalizing n with
  | nil => simp at hn
  | cons x xs ih =>
    cases xs with
    | nil =>
      have : n = 0 := by simpa using hn.symm
      subst this
      simp [setBack]
    | cons y ys =>
      cases n with
      | zero => simp at hn
      | succ k =>
        have hk : (y :: ys).length = k + 1 := by simpa using hn
        simp only [setBack, List.getElem?_cons_succ]
        exact ih k hk

theorem iprocmap_length (nprocs myproc : Nat) : (iprocmap nprocs myproc).length = nprocs + 1 := by
  simp [iprocmap, setBack_length, iota_length]

theorem iprocmap_getElem?_lt (nprocs myproc i : Nat) (hi : i < nprocs) :
    (iprocmap nprocs myproc)[i]? = some (i : Int) := by
  unfold iprocmap
  rw [setBack_getElem?_lt _ _ i (by simp [iota_length]; omega)]
  rw [iota_getElem? _ _ i (by simp; omega)]
  simp

theorem iprocmap_getElem?_last (nprocs myproc : Nat) :
    (iprocmap nprocs myproc)[nprocs]? = some (myproc : Int) := by
  unfold iprocmap
  exact setBack_getElem?_last _ _ nprocs (by simp [iota_length])

/-! ## C1: the ownership map -/

/-- C1. For every worker count `N ≥ 1` and calling worker `p < N`, the processor
map built in `InitOpenbc` has exactly `N + 1` entries, entry `i` is `i` for every
`i < N`, and entry `N` is `p`. -/
theorem C1_iprocmap_entries (N p : Nat) (_hN : 1 ≤ N) (_hp : p < N) :
    (iprocmap N p).length = N + 1 ∧
    (∀ i, i < N → (iprocmap N p)[i]? = some (i : Int)) ∧
    (iprocmap N p)[N]? = some (p : Int) :=
  ⟨iprocmap_length N p, fun i hi => iprocmap_getElem?_lt N p i hi, iprocmap_getElem?_last N p⟩

/-- C1 at three workers, called on worker 1: the map is `[0, 1, 2, 1]`. -/
theorem C1_iprocmap_entries_witness :
    iprocmap 3 1 = [0, 1, 2, 1] ∧
    ((iprocmap 3 1).length = 3 + 1 ∧
      (∀ i : Nat, i < 3 → (iprocmap 3 1)[i]? = some (i : Int)) ∧
      (iprocmap 3 1)[3]? = some ((1 : Nat) : Int)) :=
  ⟨by decide, C1_iprocmap_entries 3 1 (by decide) (by decide)⟩

/-! ## Lemmas on the gathered buffer and the box list -/

theorem gathered_cons (t : Lohi) (ts : List Lohi) :
    gathered (t :: ts) = t.toList ++ gathered ts := rfl

theorem gathered_length (tuples : List Lohi) : (gathered tuples).length = 6 * tuples.length := by
  induction tuples with
  | nil => rfl
  | cons t ts ih =>
    rw [gathered_cons, List.length_append, ih]
    simp only [Lohi.toList, List.length_cons, List.length_nil]
    omega

theorem alllohi_gathered (tuples : List Lohi) :
    alllohi tuples.length (gathered tuples) = gathered tuples := by
  unfold alllohi storeInto
  simp [gathered_length]

theorem boxOfWorker_eq (a : List Int) (i : Nat) (h : 6 * i + 5 < a.length) :
    boxOfWorker a i = some (boxAt a i) := by
  have e0 : a[6 * i]? = some (a.getD (6 * i) 0) := by
    rw [List.getD_eq_getElem?_getD, List.getElem?_eq_getElem (by omega)]; rfl
  have e1 : a[6 * i + 1]? = some (a.getD (6 * i + 1) 0) := by
    rw [List.getD_eq_getElem?_getD, List.getElem?_eq_getElem (by omega)]; rfl
  have e2 : a[6 * i + 2]? = some (a.getD (6 * i + 2) 0) := by
    rw [List.getD_eq_getElem?_getD, List.getElem?_eq_getElem (by omega)]; rfl
  have e3 : a[6 * i + 3]? = some (a.getD (6 * i + 3) 0) := by
    rw [List.getD_eq_getElem?_getD, List.getElem?_eq_getElem (by omega)]; rfl
  have e4 : a[6 * i + 4]? = some (a.getD (6 * i + 4) 0) := by
    rw [List.getD_eq_getElem?_getD, List.getElem?_eq_getElem (by omega)]; rfl
  have e5 : a[6 * i + 5]? = some (a.getD (6 * i + 5) 0) := by
    rw [List.getD_eq_getElem?_getD, List.getElem?_eq_getElem (by omega)]; rfl
  unfold boxOfWorker
  rw [e0, e1, e2, e3, e4, e5]
  rfl

theorem pushLoop_eq (a : List Int) (todo i : Nat) (bl : BoxList)
    (hty : bl.btype = IndexType.TheNodeType) (hlen : 6 * (i + todo) ≤ a.length) :
    pushLoop a todo i bl =
      some ⟨IndexType.TheNodeType, bl.boxes ++ (List.range' i todo).map (boxAt a)⟩ := by
  induction todo generalizing i bl with
  | zero =>
    cases bl with
    | mk t bs => simp only [pushLoop, List.range'_zero, List.map_nil, List.append_nil]; simp at hty; rw [hty]
  | succ n ih =>
    have hb : boxOfWorker a i = some (boxAt a i) := boxOfWorker_eq a i (by omega)
    have hp : bl.push_back (boxAt a i) = some { bl with boxes := bl.boxes ++ [boxAt a i] } := by
      unfold BoxList.push_back
      rw [if_pos]
      rw [hty]; rfl
    unfold pushLoop
    rw [hb]
    simp only [Option.bind_eq_bind, Option.some_bind, hp]
    rw [ih (i + 1) ⟨bl.btype, bl.boxes ++ [boxAt a i]⟩ hty (by omega)]
    simp [List.range'_succ]

theorem buildBoxList_eq (nprocs : Nat) (a : List Int) (hlen : 6 * nprocs ≤ a.length) :
    buildBoxList nprocs a = some ⟨IndexType.TheNodeType, (List.range nprocs).map (boxAt a)⟩ := by
  unfold buildBoxList
  rw [pushLoop_eq a nprocs 0 _ rfl (by omega)]
  simp [List.range_eq_range']

theorem getD_six_add (x0 x1 x2 x3 x4 x5 : Int) (rest : List Int) (n : Nat) (d : Int) :
    (x0 :: x1 :: x2 :: x3 :: x4 :: x5 :: rest).getD (n + 6) d = rest.getD n d := by
  simp [List.getD_eq_getElem?_getD]

theorem boxAt_gathered_succ (t : Lohi) (ts : List Lohi) (k : Nat) :
    boxAt (gathered (t :: ts)) (k + 1) = boxAt (gathered ts) k := by
  have e0 : 6 * (k + 1) = 6 * k + 6 := by omega
  have e1 : 6 * k + 6 + 1 = 6 * k + 1 + 6 := by omega
  have e2 : 6 * k + 6 + 2 = 6 * k + 2 + 6 := by omega
  have e3 : 6 * k + 6 + 3 = 6 * k + 3 + 6 := by omega
  have e4 : 6 * k + 6 + 4 = 6 * k + 4 + 6 := by omega
  have e5 : 6 * k + 6 + 5 = 6 * k + 5 + 6 := by omega
  unfold boxAt
  rw [gathered_cons, e0, e1, e2, e3, e4, e5]
  simp only [Lohi.toList, List.cons_append, List.nil_append, getD_six_add]

theorem boxAt_gathered (tuples : List Lohi) (i : Nat) (t : Lohi) (h : tuples[i]? = some t) :
    boxAt (gathered tuples) i = t.box := by
  induction tuples generalizing i with
  | nil => simp at h
  | cons u us ih =>
    cases i with
    | zero =>
      have : u = t := by simpa using h
      subst this
      simp [boxAt, gathered_cons, Lohi.toList, Lohi.box]
    | succ k =>
      rw [boxAt_gathered_succ]
      exact ih k (by simpa using h)

theorem boxAt_coords (a : List Int) (i c : Nat) (hc : c < 6) (h : 6 * i + 5 < a.length) :
    (boxAt a i).coords[c]? = a[6 * i + c]? := by
  have key : ∀ k, k < a.length → some (a.getD k 0) = a[k]? := by
    intro k hk
    rw [List.getD_eq_getElem?_getD, List.getElem?_eq_getElem hk]; rfl
  have h0 := key (6 * i) (by omega)
  have h1 := key (6 * i + 1) (by omega)
  have h2 := key (6 * i + 2) (by omega)
  have h3 := key (6 * i + 3) (by omega)
  have h4 := key (6 * i + 4) (by omega)
  have h5 := key (6 * i + 5) (by omega)
  unfold boxAt Box.coords
  match c, hc with
  | 0, _ => simpa using h0
  | 1, _ => simpa using h1
  | 2, _ => simpa using h2
  | 3, _ => simpa using h3
  | 4, _ => simpa using h4
  | 5, _ => simpa using h5

theorem buildBoxList_gathered (tuples : List Lohi) :
    buildBoxList tuples.length (alllohi tuples.length (gathered tuples)) =
      some ⟨IndexType.TheNodeType, tuples.map Lohi.box⟩ := by
  rw [alllohi_gathered, buildBoxList_eq _ _ (by rw [gathered_length])]
  congr 2
  apply List.ext_getElem?
  intro i
  by_cases hi : i < tuples.length
  · have ht : tuples[i]? = some tuples[i] := List.getElem?_eq_getElem hi
    simp [List.getElem?_map, List.getElem?_range, hi, boxAt_gathered tuples i _ ht]
  · rw [List.getElem?_eq_none (by simp; omega), List.getElem?_eq_none (by simp; omega)]

/-! ## C2: how many boxes the secondary decomposition has -/

/-- C2, refuted as stated. A single worker: the box list holds one box, not two,
while the processor map has two entries. -/
theorem C2_single_worker_one_box :
    (buildBoxList 1 (alllohi 1 (gathered [⟨0, 0, 0, 8, 8, 8⟩]))).map (fun bl => bl.boxes.length)
        = some 1 ∧
    (buildBoxList 1 (alllohi 1 (gathered [⟨0, 0, 0, 8, 8, 8⟩]))).map (fun bl => bl.boxes.length)
        ≠ some (1 + 1) ∧
    (iprocmap 1 0).length = 1 + 1 := by
  decide

/-- C2, amended. For every worker count `N ≥ 1` the box list built by `InitOpenbc`
holds exactly `N` boxes, one per worker and no placeholder box, so the processor
map has one entry more than there are boxes. For a single worker there is exactly
one box, and both entries of the processor map are worker 0. -/
theorem C2_one_box_per_worker (tuples : List Lohi) (p : Nat) (_hN : 1 ≤ tuples.length)
    (hp : p < tuples.length) :
    ∃ bl, buildBoxList tuples.length (alllohi tuples.length (gathered tuples)) = some bl ∧
      bl.boxes.length = tuples.length ∧
      (iprocmap tuples.length p).length = bl.boxes.length + 1 ∧
      (tuples.length = 1 → bl.boxes.length = 1 ∧ iprocmap tuples.length p = [0, 0]) := by
  refine ⟨_, buildBoxList_gathered tuples, by simp, by simp [iprocmap_length], ?_⟩
  intro h1
  refine ⟨by simp [h1], ?_⟩
  rw [h1] at hp ⊢
  have hp0 : p = 0 := by omega
  subst hp0
  decide

/-- C2, amended, at a single worker. -/
theorem C2_one_box_per_worker_witness :
    ∃ bl, buildBoxList 1 (alllohi 1 (gathered [⟨0, 0, 0, 8, 8, 8⟩])) = some bl ∧
      bl.boxes.length = 1 ∧ (iprocmap 1 0).length = bl.boxes.length + 1 ∧
      iprocmap 1 0 = [0, 0] := by
  obtain ⟨bl, h1, h2, h3, h4⟩ :=
    C2_one_box_per_worker [⟨0, 0, 0, 8, 8, 8⟩] 0 (by decide) (by decide)
  exact ⟨bl, h1, h2, h3, (h4 rfl).2⟩

/-! ## C3: the gathered boxes, worker by worker -/

/-- C3. When the gather delivers the concatenation of the workers' six integers in
ascending worker id, the box list built by `InitOpenbc` has one box per worker,
in worker order, and box `i` is node-typed with the integers `6i..6i+2` of the
sequence as low corner and `6i+3..6i+5` as high corner: worker `i`'s own tuple. -/
theorem C3_boxes_follow_gather (tuples : List Lohi) :
    ∃ bl, buildBoxList tuples.length (alllohi tuples.length (gathered tuples)) = some bl ∧
      bl.boxes.length = tuples.length ∧
      ∀ i t, tuples[i]? = some t →
        ∃ b, bl.boxes[i]? = some b ∧ b.btype = IndexType.TheNodeType ∧
          (∀ c, c < 6 → b.coords[c]? = (gathered tuples)[6 * i + c]?) ∧
          b.smallend = ⟨t.lo_x, t.lo_y, t.lo_z⟩ ∧ b.bigend = ⟨t.hi_x, t.hi_y, t.hi_z⟩ := by
  refine ⟨_, buildBoxList_gathered tuples, by simp, ?_⟩
  intro i t ht
  have hi : i < tuples.length := by
    rcases Nat.lt_or_ge i tuples.length with h | h
    · exact h
    · rw [List.getElem?_eq_none (by omega)] at ht; cases ht
  refine ⟨t.box, by simp [List.getElem?_map, ht], rfl, ?_, rfl, rfl⟩
  intro c hc
  rw [← boxAt_gathered tuples i t ht]
  exact boxAt_coords _ i c hc (by rw [gathered_length]; omega)

/-- C3 for two workers: the second box has the second worker's corners. -/
theorem C3_boxes_follow_gather_witness :
    ∃ bl, buildBoxList 2 (alllohi 2 (gathered [⟨0, 0, 0, 3, 7, 7⟩, ⟨4, 0, 0, 7, 7, 7⟩])) = some bl ∧
      bl.boxes.length = 2 ∧
      ∃ b, bl.boxes[1]? = some b ∧ b.btype = IndexType.TheNodeType ∧
        b.smallend = ⟨4, 0, 0⟩ ∧ b.bigend = ⟨7, 7, 7⟩ := by
  obtain ⟨bl, h1, h2, h3⟩ := C3_boxes_follow_gather [⟨0, 0, 0, 3, 7, 7⟩, ⟨4, 0, 0, 7, 7, 7⟩]
  obtain ⟨b, hb, hty, _, hlo, hhi⟩ := h3 1 ⟨4, 0, 0, 7, 7, 7⟩ rfl
  exact ⟨bl, h1, h2, b, hb, hty, hlo, hhi⟩

/-! ## C4: a gather of the wrong size -/

theorem openbcFields_gathered {R : Type} (tuples : List Lohi) (p : Nat)
    (memRho memPhi : Nat → IntVect → R) :
    openbcFields tuples.length p (alllohi tuples.length (gathered tuples)) memRho memPhi =
      some (⟨tuples.map Lohi.box, iprocmap tuples.length p, 1, 0, memRho⟩,
            ⟨tuples.map Lohi.box, iprocmap tuples.length p, 1, 0, memPhi⟩) := by
  unfold openbcFields
  rw [buildBoxList_gathered]
  rfl

/-- C5. For every worker count `N ≥ 1` and calling worker `p < N`, index `p` is a
valid box index of `rho_openbc` and of `phi_openbc`, the processor map gives that
box to worker `p`, so `rho_openbc[myproc]` and `phi_openbc[myproc]` are both
defined on the calling worker; the two fields have the same boxes and the same
owners, and the two buffers span the same box, hence have the same shape and
the same number of components. -/
theorem C5_solver_buffers (R : Type) (tuples : List Lohi) (p : Nat) (_hN : 1 ≤ tuples.length)
    (hp : p < tuples.length) (memRho memPhi : Nat → IntVect → R) :
    ∃ rho phi : MultiFab R,
      openbcFields tuples.length p (alllohi tuples.length (gathered tuples)) memRho memPhi
        = some (rho, phi) ∧
      p < rho.boxarray.length ∧ p < phi.boxarray.length ∧
      rho.distributionMap[p]? = some (p : Int) ∧ phi.distributionMap[p]? = some (p : Int) ∧
      rho.boxarray = phi.boxarray ∧ rho.distributionMap = phi.distributionMap ∧
      ∃ fin fout : FArrayBox R, rho.get p p = some fin ∧ phi.get p p = some fout ∧
        fout.box = fin.box ∧ fout.box.length = fin.box.length ∧ fout.ncomp = fin.ncomp ∧
        rho.boxarray[p]? = some fin.box := by
  have hdm : (iprocmap tuples.length p)[p]? = some (p : Int) :=
    iprocmap_getElem?_lt _ _ p hp
  have hbox : (tuples.map Lohi.box)[p]? = some (tuples[p]).box := by
    simp [List.getElem?_map, List.getElem?_eq_getElem hp]
  have hgrow : ∀ b : Box, b.grow 0 = b := by
    intro b
    simp [Box.grow]
  refine ⟨_, _, openbcFields_gathered tuples p memRho memPhi, by simpa using hp,
    by simpa using hp, hdm, hdm, rfl, rfl,
    ⟨(tuples[p]).box, 1, memRho p⟩, ⟨(tuples[p]).box, 1, memPhi p⟩, ?_, ?_, rfl, rfl, rfl, hbox⟩
  · simp only [MultiFab.get, MultiFab.fabbox, hbox, hdm, Option.map_some', hgrow, if_true]
  · simp only [MultiFab.get, MultiFab.fabbox, hbox, hdm, Option.map_some', hgrow, if_true]

/-- C5 for two workers, on worker 1: the buffers span worker 1's gathered box. -/
theorem C5_solver_buffers_witness :
    ∃ rho phi : MultiFab Int,
      openbcFields 2 1 (alllohi 2 (gathered [⟨0, 0, 0, 3, 7, 7⟩, ⟨4, 0, 0, 7, 7, 7⟩]))
        (fun _ _ => 0) (fun _ _ => 0) = some (rho, phi) ∧
      ∃ fin fout : FArrayBox Int, rho.get 1 1 = some fin ∧ phi.get 1 1 = some fout ∧
        fout.box.length = fin.box.length ∧
        rho.boxarray[1]? = some fin.box := by
  obtain ⟨rho, phi, h, _, _, _, _, _, _, fin, fout, h1, h2, _, h4, _, h6⟩ :=
    C5_solver_buffers Int [⟨0, 0, 0, 3, 7, 7⟩, ⟨4, 0, 0, 7, 7, 7⟩] 1 (by decide) (by decide)
      (fun _ _ => 0) (fun _ _ => 0)
  exact ⟨rho, phi, h, fin, fout, h1, h2, h4, h6⟩

/-! ## Lemmas on box geometry -/

theorem mem_rangeZ (lo hi x : Int) : x ∈ rangeZ lo hi ↔ lo ≤ x ∧ x ≤ hi := by
  unfold rangeZ
  rw [List.mem_map]
  constructor
  · rintro ⟨n, hn, rfl⟩
    rw [List.mem_range] at hn
    omega
  · intro h
    refine ⟨(x - lo).toNat, ?_, ?_⟩
    · rw [List.mem_range]; omega
    · omega

theorem nodup_rangeZ (lo hi : Int) : (rangeZ lo hi).Nodup := by
  unfold rangeZ
  apply List.Nodup.map
  · intro a b h
    simp only at h
    omega
  · exact List.nodup_range _

theorem Box.mem_points (b : Box) (p : IntVect) : p ∈ b.points ↔ b.contains p = true := by
  unfold Box.points Box.contains
  simp only [List.mem_map, Prod.exists, List.mem_product, mem_rangeZ, decide_eq_true_eq]
  constructor
  · rintro ⟨i, j, k, ⟨hi, hj, hk⟩, rfl⟩
    exact ⟨hi.1, hi.2, hj.1, hj.2, hk.1, hk.2⟩
  · rintro ⟨h1, h2, h3, h4, h5, h6⟩
    exact ⟨p.x, p.y, p.z, ⟨⟨h1, h2⟩, ⟨h3, h4⟩, ⟨h5, h6⟩⟩, rfl⟩

theorem Box.nodup_points (b : Box) : b.points.Nodup := by
  unfold Box.points
  refine List.Nodup.map ?_
    ((nodup_rangeZ _ _).product ((nodup_rangeZ _ _).product (nodup_rangeZ _ _)))
  rintro ⟨a1, a2, a3⟩ ⟨b1, b2, b3⟩ h
  simp only [IntVect.mk.injEq] at h
  obtain ⟨h1, h2, h3⟩ := h
  simp [h1, h2, h3]

theorem Box.grow_zero (b : Box) : b.grow 0 = b := by
  simp [Box.grow]

theorem Box.contains_grow_of_contains (b : Box) (n : Nat) (p : IntVect)
    (h : b.contains p = true) : (b.grow n).contains p = true := by
  unfold Box.contains Box.grow at *
  simp only [decide_eq_true_eq] at h ⊢
  omega

theorem IntVect.add_zero (p : IntVect) : p.add ⟨0, 0, 0⟩ = p := by
  simp [IntVect.add]

theorem shiftIntVect_nonperiodic (gm : Geometry) (hx : gm.periodicX = false)
    (hy : gm.periodicY = false) (hz : gm.periodicZ = false) :
    gm.periodicity.shiftIntVect = [⟨0, 0, 0⟩] := by
  simp [Geometry.periodicity, Periodicity.shiftIntVect, axisShifts, hx, hy, hz]

/-! ## Lemmas on sums over boxes -/

theorem sum_map_range {R : Type} [AddCommMonoid R] (f : Nat → R) (n : Nat) :
    ((List.range n).map f).sum = ∑ i in Finset.range n, f i := by
  induction n with
  | zero => simp
  | succ n ih => rw [List.range_succ, List.map_append, List.sum_append, ih, Finset.sum_range_succ]; simp

theorem sum_map_points {R : Type} [AddCommMonoid R] (b : Box) (f : IntVect → R) :
    (b.points.map f).sum = ∑ p in b.points.toFinset, f p :=
  (List.sum_toFinset f b.nodup_points).symm

theorem sum_filterMap {R α : Type} [AddCommMonoid R] (l : List α) (f : α → Option R) :
    (l.filterMap f).sum = (l.map fun a => (f a).getD 0).sum := by
  induction l with
  | nil => rfl
  | cons a l ih =>
    cases h : f a with
    | none => simp [List.filterMap_cons, h, ih]
    | some v => simp [List.filterMap_cons, h, ih]

theorem sum_map_indicator {R : Type} [AddCommMonoid R] (ba : List Box) (pt : IntVect) (v : R) :
    (ba.map fun d => if d.contains pt = true then v else 0).sum
      = (ba.countP fun d => d.contains pt) • v := by
  induction ba with
  | nil => simp
  | cons d ds ih =>
    by_cases h : d.contains pt = true
    · simp [List.countP_cons, h, ih, add_nsmul, add_comm]
    · simp [List.countP_cons, h, ih]

theorem map_getD_range {α : Type} (l : List α) (d : α) :
    (List.range l.length).map (fun j => l.getD j d) = l := by
  apply List.ext_getElem?
  intro i
  by_cases hi : i < l.length
  · simp [List.getElem?_map, List.getElem?_range, hi, List.getD_eq_getElem?_getD,
      List.getElem?_eq_getElem hi]
  · rw [List.getElem?_eq_none (by simp; omega), List.getElem?_eq_none (by omega)]

theorem getD_of_getElem? {α : Type} (l : List α) (d a : α) (i : Nat) (h : l[i]? = some a) :
    l.getD i d = a := by
  simp [List.getD_eq_getElem?_getD, h]

theorem getElem?_of_lt_getD {α : Type} (l : List α) (d : α) (i : Nat) (h : i < l.length) :
    l[i]? = some (l.getD i d) := by
  simp [List.getD_eq_getElem?_getD, List.getElem?_eq_getElem h]
/-! ## Lemmas on the copies without periodic images -/

theorem contributions_sum {R : Type} [AddCommMonoid R] (src : MultiFab R) (ng : Nat)
    (gm : Geometry) (hx : gm.periodicX = false) (hy : gm.periodicY = false)
    (hz : gm.periodicZ = false) (pt : IntVect) :
    (contributions src ng gm.periodicity pt).sum =
      ∑ i in Finset.range src.boxarray.length,
        if ((src.boxarray.getD i Box.default).grow ng).contains pt = true
          then src.fab i pt else 0 := by
  unfold contributions
  rw [shiftIntVect_nonperiodic gm hx hy hz]
  simp only [List.map_cons, List.map_nil, List.flatten_cons, List.flatten_nil, List.append_nil,
    IntVect.add_zero]
  rw [sum_filterMap, sum_map_range]
  apply Finset.sum_congr rfl
  intro i hi
  rw [getElem?_of_lt_getD src.boxarray Box.default i (Finset.mem_range.mp hi)]
  simp only
  split <;> rfl

theorem reductionCopy_fab {R : Type} [AddCommMonoid R] (ba : List Box) (dm : List Int)
    (mem : Nat → IntVect → R) (rho : MultiFab R) (gm : Geometry) (j : Nat) (b : Box)
    (pt : IntVect) (hb : ba[j]? = some b) (hpt : b.contains pt = true) :
    (reductionCopy ba dm mem rho gm).fab j pt =
      (contributions rho rho.ngrow gm.periodicity pt).sum := by
  simp [reductionCopy, MultiFab.copy, rhoOpenbcZeroed, MultiFab.setVal, reductionCopyCall, hb,
    Box.grow_zero, hpt, combine]

theorem reductionCopy_total {R : Type} [AddCommMonoid R] (ba : List Box) (dm : List Int)
    (mem : Nat → IntVect → R) (rho : MultiFab R) (gm : Geometry)
    (hx : gm.periodicX = false) (hy : gm.periodicY = false) (hz : gm.periodicZ = false) :
    (reductionCopy ba dm mem rho gm).total 0 =
      ∑ i in Finset.range rho.boxarray.length,
        ∑ pt in ((rho.boxarray.getD i Box.default).grow rho.ngrow).points.toFinset,
          (ba.countP fun d => d.contains pt) • rho.fab i pt := by
  have hba : (reductionCopy ba dm mem rho gm).boxarray = ba := rfl
  unfold MultiFab.total
  rw [hba, sum_map_range]
  have step1 : ∀ j ∈ Finset.range ba.length,
      ((((ba.getD j Box.default).grow 0).points.map
        ((reductionCopy ba dm mem rho gm).fab j)).sum) =
      ∑ pt in (ba.getD j Box.default).points.toFinset,
        ∑ i in Finset.range rho.boxarray.length,
          if pt ∈ ((rho.boxarray.getD i Box.default).grow rho.ngrow).points.toFinset
            then rho.fab i pt else 0 := by
    intro j hj
    rw [Box.grow_zero, sum_map_points]
    apply Finset.sum_congr rfl
    intro pt hpt
    rw [reductionCopy_fab ba dm mem rho gm j _ pt
      (getElem?_of_lt_getD ba Box.default j (Finset.mem_range.mp hj))
      ((Box.mem_points _ _).mp (List.mem_toFinset.mp hpt)),
      contributions_sum rho rho.ngrow gm hx hy hz pt]
    apply Finset.sum_congr rfl
    intro i _
    simp only [List.mem_toFinset, Box.mem_points]
  rw [Finset.sum_congr rfl step1]
  -- reorder: boxes of the source outermost
  have step2 : ∀ j ∈ Finset.range ba.length,
      (∑ pt in (ba.getD j Box.default).points.toFinset,
        ∑ i in Finset.range rho.boxarray.length,
          if pt ∈ ((rho.boxarray.getD i Box.default).grow rho.ngrow).points.toFinset
            then rho.fab i pt else 0) =
      ∑ i in Finset.range rho.boxarray.length,
        ∑ pt in ((rho.boxarray.getD i Box.default).grow rho.ngrow).points.toFinset,
          if pt ∈ (ba.getD j Box.default).points.toFinset then rho.fab i pt else 0 := by
    intro j _
    rw [Finset.sum_comm]
    apply Finset.sum_congr rfl
    intro i _
    rw [Finset.sum_ite_mem, Finset.sum_ite_mem, Finset.inter_comm]
  rw [Finset.sum_congr rfl step2, Finset.sum_comm]
  apply Finset.sum_congr rfl
  intro i _
  rw [Finset.sum_comm]
  apply Finset.sum_congr rfl
  intro pt _
  rw [← sum_map_indicator, ← sum_map_range]
  conv_rhs => rw [← map_getD_range ba Box.default]
  rw [List.map_map]
  congr 1
  apply List.map_congr_left
  intro j _
  simp only [Function.comp, List.mem_toFinset, Box.mem_points]
theorem contributions_nonperiodic {R : Type} (src : MultiFab R) (ng : Nat)
    (gm : Geometry) (hx : gm.periodicX = false) (hy : gm.periodicY = false)
    (hz : gm.periodicZ = false) (pt : IntVect) :
    contributions src ng gm.periodicity pt =
      (List.range src.boxarray.length).filterMap fun i =>
        match src.boxarray[i]? with
        | some b => if (b.grow ng).contains pt = true then some (src.fab i pt) else none
        | none => none := by
  unfold contributions
  rw [shiftIntVect_nonperiodic gm hx hy hz]
  simp only [List.map_cons, List.map_nil, List.flatten_cons, List.flatten_nil, List.append_nil,
    IntVect.add_zero]

theorem getLast?_getD_of_forall_eq {R : Type} (l : List R) (d v : R) (hne : l ≠ [])
    (hall : ∀ x ∈ l, x = v) : l.getLast?.getD d = v := by
  rw [List.getLast?_eq_getLast l hne]
  exact hall _ (List.getLast_mem hne)

theorem scatterCopy_fab {R : Type} [AddCommMonoid R] (src : MultiFab R) (grids : List Box)
    (dmap : List Int) (mem : Nat → IntVect → R) (gm : Geometry) (k : Nat) (bx : Box)
    (pt : IntVect) (hk : (grids.map Box.surroundingNodes)[k]? = some bx)
    (hpt : bx.contains pt = true) :
    (scatterCopy src grids dmap mem gm).fab k pt =
      (contributions src 0 gm.periodicity pt).getLast?.getD (mem k pt) := by
  simp only [scatterCopy, MultiFab.copy, scatterCopyCall, hk, Box.grow_zero, hpt, combine,
    if_true]

theorem reductionCopy_fab_single {R : Type} [AddCommMonoid R] (ba : List Box) (dm : List Int)
    (mem : Nat → IntVect → R) (rho : MultiFab R) (gm : Geometry)
    (hx : gm.periodicX = false) (hy : gm.periodicY = false) (hz : gm.periodicZ = false)
    (j : Nat) (b : Box) (pt : IntVect) (hb : ba[j]? = some b) (hpt : b.contains pt = true)
    (k : Nat) (bk : Box) (hk : rho.boxarray[k]? = some bk)
    (hin : (bk.grow rho.ngrow).contains pt = true)
    (hno : ∀ (i : Nat) (bi : Box), i ≠ k → rho.boxarray[i]? = some bi →
      (bi.grow rho.ngrow).contains pt = false) :
    (reductionCopy ba dm mem rho gm).fab j pt = rho.fab k pt := by
  have hklt : k < rho.boxarray.length := by
    rcases Nat.lt_or_ge k rho.boxarray.length with h | h
    · exact h
    · rw [List.getElem?_eq_none (by omega)] at hk; cases hk
  rw [reductionCopy_fab ba dm mem rho gm j b pt hb hpt, contributions_sum rho _ gm hx hy hz,
    Finset.sum_eq_single_of_mem k (Finset.mem_range.mpr hklt)]
  · rw [getD_of_getElem? _ _ _ _ hk, if_pos hin]
  · intro i hi hik
    rw [if_neg]
    rw [hno i _ hik (getElem?_of_lt_getD rho.boxarray Box.default i (Finset.mem_range.mp hi))]
    simp

/-! ## C6: conservation under the reduction copy -/

/-- C6, refuted as stated. One worker whose gathered box is the node domain
`[0,2]x[0,1]x[0,1]`, no periodic axis. The source values total 2 with the ghost
nodes and 0 without them, and the redistributed field totals 1: the value at the
ghost node outside every gathered box is dropped. -/
theorem C6_ghost_value_dropped :
    (buildBoxList 1 (alllohi 1 (gathered [⟨0, 0, 0, 2, 1, 1⟩]))).map
      (fun bl => (reductionCopy bl.boxes (iprocmap 1 0) (fun _ _ => 0) conservationSample
        conservationGeometry).total 0) = some 1 ∧
    conservationSample.total conservationSample.ngrow = 2 ∧
    conservationSample.total 0 = 0 := by
  decide
/-- C6, amended. In `InitOpenbc` the reduction copy is made with mode `ADD` into
`rho_openbc` right after `setVal(0.0)`, so every destination value is zero
beforehand. With no periodic axis, if every stored sample of the source field
(ghost layers included, as the call passes `rho->nGrow()`) sits at a point lying
in exactly one box of the secondary decomposition, then the values of the
redistributed field sum to the sum `S` of all stored source values. -/
theorem C6_reduction_conserves (R : Type) [AddCommMonoid R] (ba : List Box) (dm : List Int)
    (mem : Nat → IntVect → R) (rho : MultiFab R) (gm : Geometry)
    (hx : gm.periodicX = false) (hy : gm.periodicY = false) (hz : gm.periodicZ = false)
    (honce : ∀ (i : Nat) (b : Box) (pt : IntVect), rho.boxarray[i]? = some b → (b.grow rho.ngrow).contains pt = true →
      (ba.countP fun d => d.contains pt) = 1) :
    (∀ j pt, (rhoOpenbcZeroed ba dm mem).fab j pt = 0) ∧
    (reductionCopyCall rho gm).op = CpOp.ADD ∧
    reductionCopy ba dm mem rho gm =
      (rhoOpenbcZeroed ba dm mem).copy rho (reductionCopyCall rho gm) ∧
    (reductionCopy ba dm mem rho gm).total 0 = rho.total rho.ngrow := by
  refine ⟨fun _ _ => rfl, rfl, rfl, ?_⟩
  rw [reductionCopy_total ba dm mem rho gm hx hy hz]
  unfold MultiFab.total
  rw [sum_map_range]
  apply Finset.sum_congr rfl
  intro i hi
  rw [sum_map_points]
  apply Finset.sum_congr rfl
  intro pt hpt
  rw [honce i _ pt (getElem?_of_lt_getD rho.boxarray Box.default i (Finset.mem_range.mp hi))
    ((Box.mem_points _ _).mp (List.mem_toFinset.mp hpt)), one_nsmul]

/-- C6, amended, for one worker whose gathered box `[0,1]^3` is the source box: the
redistributed values sum to 28, the sum of the source values. -/
theorem C6_reduction_conserves_witness :
    (reductionCopy [⟨⟨0, 0, 0⟩, ⟨1, 1, 1⟩, IndexType.TheNodeType⟩] (iprocmap 1 0) (fun _ _ => 7)
      conservedSample conservationGeometry).total 0 = conservedSample.total conservedSample.ngrow ∧
    conservedSample.total conservedSample.ngrow = 28 :=
  ⟨(C6_reduction_conserves Int [⟨⟨0, 0, 0⟩, ⟨1, 1, 1⟩, IndexType.TheNodeType⟩] (iprocmap 1 0)
      (fun _ _ => 7) conservedSample conservationGeometry rfl rfl rfl
      (by
        intro i b pt hb hpt
        have hi : i = 0 := by
          rcases i with _ | i
          · rfl
          · simp [conservedSample] at hb
        subst hi
        have hb' : b = ⟨⟨0, 0, 0⟩, ⟨1, 1, 1⟩, IndexType.TheNodeType⟩ := by
          simpa [conservedSample] using hb.symm
        subst hb'
        have hg : conservedSample.ngrow = 0 := rfl
        rw [hg, Box.grow_zero] at hpt
        simp [List.countP_cons, hpt])).2.2.2,
   by decide⟩

/-! ## C7: reduction copy followed by scatter copy -/

/-- C7. Take any gathered boxes, no periodic axis, and a primary field `rho` laid out
on the node-surrounding boxes of the primary decomposition. Let `pt` be a point of
the owned box `k`, covered by some gathered box (the secondary decomposition
covers the domain), and let no other box of `rho`, ghost layers included, hold a
sample at `pt` (no additive overlap). Then reduction copy into the zeroed secondary
field followed by the scatter copy returns at `(k, pt)` the original value of
`rho`, whatever the buffers held before. -/
theorem C7_round_trip (R : Type) [AddCommMonoid R] (tuples : List Lohi) (p : Nat)
    (grids : List Box) (dmap : List Int) (rho : MultiFab R) (gm : Geometry)
    (memOpenbc memPhi : Nat → IntVect → R)
    (hx : gm.periodicX = false) (hy : gm.periodicY = false) (hz : gm.periodicZ = false)
    (hlayout : rho.boxarray = grids.map Box.surroundingNodes)
    (k : Nat) (bx : Box) (pt : IntVect)
    (hk : (grids.map Box.surroundingNodes)[k]? = some bx) (hpt : bx.contains pt = true)
    (hcover : ∃ t ∈ tuples, t.box.contains pt = true)
    (hno : ∀ (i : Nat) (bi : Box), i ≠ k → rho.boxarray[i]? = some bi →
      (bi.grow rho.ngrow).contains pt = false) :
    ∃ phi, roundTrip tuples.length p (gathered tuples) grids dmap rho gm memOpenbc memPhi
        = some phi ∧
      phi.fab k pt = rho.fab k pt := by
  have hrt : roundTrip tuples.length p (gathered tuples) grids dmap rho gm memOpenbc memPhi =
      some (scatterCopy (reductionCopy (tuples.map Lohi.box) (iprocmap tuples.length p)
        memOpenbc rho gm) grids dmap memPhi gm) := by
    unfold roundTrip
    rw [buildBoxList_gathered]
    rfl
  refine ⟨_, hrt, ?_⟩
  rw [scatterCopy_fab _ grids dmap memPhi gm k bx pt hk hpt]
  have hkr : rho.boxarray[k]? = some bx := by rw [hlayout]; exact hk
  have hval : ∀ j b, (tuples.map Lohi.box)[j]? = some b → b.contains pt = true →
      (reductionCopy (tuples.map Lohi.box) (iprocmap tuples.length p) memOpenbc rho gm).fab j pt
        = rho.fab k pt := by
    intro j b hb hbpt
    exact reductionCopy_fab_single _ _ _ rho gm hx hy hz j b pt hb hbpt k bx hkr
      (Box.contains_grow_of_contains bx _ pt hpt) hno
  apply getLast?_getD_of_forall_eq
  · obtain ⟨t, ht, htpt⟩ := hcover
    obtain ⟨j, hj, hjt⟩ := List.getElem_of_mem ht
    have hjb : (tuples.map Lohi.box)[j]? = some t.box := by
      simp [List.getElem?_map, List.getElem?_eq_getElem hj, hjt]
    intro hnil
    have hmem : rho.fab k pt ∈ contributions (reductionCopy (tuples.map Lohi.box)
        (iprocmap tuples.length p) memOpenbc rho gm) 0 gm.periodicity pt := by
      rw [contributions_nonperiodic _ _ gm hx hy hz, List.mem_filterMap]
      refine ⟨j, List.mem_range.mpr (by show j < (tuples.map Lohi.box).length; simpa using hj), ?_⟩
      have hba : (reductionCopy (tuples.map Lohi.box) (iprocmap tuples.length p) memOpenbc
          rho gm).boxarray = tuples.map Lohi.box := rfl
      rw [hba, hjb]
      simp only [Box.grow_zero, htpt, if_true]
      rw [hval j t.box hjb htpt]
    rw [hnil] at hmem
    cases hmem
  · intro x hxmem
    rw [contributions_nonperiodic _ _ gm hx hy hz, List.mem_filterMap] at hxmem
    obtain ⟨j, _, hj⟩ := hxmem
    have hba : (reductionCopy (tuples.map Lohi.box) (iprocmap tuples.length p) memOpenbc
        rho gm).boxarray = tuples.map Lohi.box := rfl
    rw [hba] at hj
    cases hjb : (tuples.map Lohi.box)[j]? with
    | none => rw [hjb] at hj; cases hj
    | some b =>
      rw [hjb] at hj
      simp only [Box.grow_zero] at hj
      by_cases hc : b.contains pt = true
      · rw [if_pos hc] at hj
        cases hj
        exact hval j b hjb hc
      · rw [if_neg hc] at hj
        cases hj
/-- C7 for a single worker whose gathered box is the node box `[0,1]^3` of the single
cell `(0,0,0)`: at node `(1,0,1)` the round trip returns the original value 105,
although the buffers held 7 and 9 before. -/
theorem C7_round_trip_witness :
    ∃ phi, roundTrip 1 0 (gathered [⟨0, 0, 0, 1, 1, 1⟩])
        [⟨⟨0, 0, 0⟩, ⟨0, 0, 0⟩, IndexType.TheCellType⟩] [0] roundTripSample
        conservationGeometry (fun _ _ => 7) (fun _ _ => 9) = some phi ∧
      phi.fab 0 ⟨1, 0, 1⟩ = roundTripSample.fab 0 ⟨1, 0, 1⟩ ∧
      roundTripSample.fab 0 ⟨1, 0, 1⟩ = 105 := by
  obtain ⟨phi, h1, h2⟩ := C7_round_trip Int [⟨0, 0, 0, 1, 1, 1⟩] 0
    [⟨⟨0, 0, 0⟩, ⟨0, 0, 0⟩, IndexType.TheCellType⟩] [0] roundTripSample conservationGeometry
    (fun _ _ => 7) (fun _ _ => 9) rfl rfl rfl (by decide) 0
    ⟨⟨0, 0, 0⟩, ⟨1, 1, 1⟩, IndexType.TheNodeType⟩ ⟨1, 0, 1⟩ (by decide) (by decide)
    ⟨⟨0, 0, 0, 1, 1, 1⟩, by simp, by decide⟩
    (by
      intro i bi hi hbi
      rcases i with _ | i
      · exact absurd rfl hi
      · simp [roundTripSample] at hbi)
  exact ⟨phi, h1, h2, by decide⟩

/-! ## C8: the two copy calls -/

/-- C8. The scatter copy into `phi`, laid out on the node-surrounding boxes of the
primary decomposition, is called with the periodicity of the level-0 geometry,
exactly as the reduction copy is, so both use the same per-axis flags, which are
the flags of the geometry on a domain with at least one cell per axis; the
reduction copy adds and the scatter copy overwrites; and the scatter call is the
reduction call made on its own source `phi_openbc` (component 0 onto component 0,
one component, all ghost layers of the source, none of the destination, same
periodicity) with only the mode changed. -/
theorem C8_scatter_call (R : Type) (gm : Geometry) (rho : MultiFab R)
    (ba grids : List Box) (dm dmap : List Int) (memOpenbc memPhi : Nat → IntVect → R) :
    let phi_openbc : MultiFab R := ⟨ba, dm, 1, 0, memOpenbc⟩
    let phi : MultiFab R := ⟨grids.map Box.surroundingNodes, dmap, 1, 0, memPhi⟩
    (scatterCopyCall phi gm).period = gm.periodicity ∧
    (reductionCopyCall rho gm).period = gm.periodicity ∧
    (scatterCopyCall phi gm).period.isPeriodic = (reductionCopyCall rho gm).period.isPeriodic ∧
    (0 < gm.domain.length.1 ∧ 0 < gm.domain.length.2.1 ∧ 0 < gm.domain.length.2.2 →
      (scatterCopyCall phi gm).period.isPeriodic = (gm.periodicX, gm.periodicY, gm.periodicZ)) ∧
    (reductionCopyCall rho gm).op = CpOp.ADD ∧
    (scatterCopyCall phi gm).op = CpOp.COPY ∧
    scatterCopyCall phi gm = { reductionCopyCall phi_openbc gm with op := CpOp.COPY } ∧
    scatterCopyCall phi gm =
      { reductionCopyCall rho gm with op := CpOp.COPY, src_nghost := phi_openbc.ngrow } := by
  refine ⟨rfl, rfl, rfl, ?_, rfl, rfl, rfl, rfl⟩
  rintro ⟨h1, h2, h3⟩
  have e1 : gm.domain.length.1 ≠ 0 := by omega
  have e2 : gm.domain.length.2.1 ≠ 0 := by omega
  have e3 : gm.domain.length.2.2 ≠ 0 := by omega
  simp only [scatterCopyCall, Geometry.periodicity, Periodicity.isPeriodic]
  cases gm.periodicX <;> cases gm.periodicY <;> cases gm.periodicZ <;> simp [e1, e2, e3]

/-- C8 on the domain `[0,1]x[0,0]x[0,0]`, periodic in x only: both copies are called
with period `(2,0,0)`, that is with the flags (periodic, not, not). -/
theorem C8_scatter_call_witness :
    (scatterCopyCall (⟨[], [], 1, 0, fun _ _ => 0⟩ : MultiFab Int)
      ⟨⟨⟨0, 0, 0⟩, ⟨1, 0, 0⟩, IndexType.TheCellType⟩, true, false, false⟩).period = ⟨⟨2, 0, 0⟩⟩ ∧
    (scatterCopyCall (⟨[], [], 1, 0, fun _ _ => 0⟩ : MultiFab Int)
      ⟨⟨⟨0, 0, 0⟩, ⟨1, 0, 0⟩, IndexType.TheCellType⟩, true, false, false⟩).period.isPeriodic
        = (true, false, false) :=
  ⟨by decide,
   (C8_scatter_call Int ⟨⟨⟨0, 0, 0⟩, ⟨1, 0, 0⟩, IndexType.TheCellType⟩, true, false, false⟩
      conservedSample [] [] [] [] (fun _ _ => 0) (fun _ _ => 0)).2.2.2.1
      ⟨by decide, by decide, by decide⟩⟩

/-! ## C9: the stencil on a linear field -/

/-- C9. Let `phi` hold the linear field `a*x + b*y + c*z` sampled at the nodes,
node `(i,j,k)` sitting at `(x0 + i*dx, y0 + j*dy, z0 + k*dz)` with nonzero
spacings. On every box of `phi` stored on the calling worker, at every point of
the box whose stencil stays inside the buffer (not halo-limited), the vector the
stencil loop writes is exactly `(a, b, c)`. -/
theorem C9_stencil_linear (a b c x0 y0 z0 dx dy dz : ℚ) (hdx : dx ≠ 0) (hdy : dy ≠ 0)
    (hdz : dz ≠ 0) (myproc : Nat) (phi : MultiFab ℚ) (Efield : Nat → IntVect → ℚ × ℚ × ℚ)
    (k : Nat) (bx : Box) (fab : FArrayBox ℚ) (p : IntVect)
    (hbx : phi.boxarray[k]? = some bx) (hfab : phi.get myproc k = some fab)
    (hphi : ∀ q : IntVect, fab.box.contains q = true → phi.fab k q =
      a * (x0 + (q.x : ℚ) * dx) + b * (y0 + (q.y : ℚ) * dy) + c * (z0 + (q.z : ℚ) * dz))
    (hp : bx.contains p = true) (hhalo : haloLimited fab.box p = false) :
    computeE myproc phi (dx, dy, dz) Efield k p = some (a, b, c) := by
  have hdata : fab.data = phi.fab k := by
    unfold MultiFab.get at hfab
    split at hfab
    · split at hfab
      · cases hfab; rfl
      · cases hfab
    · cases hfab
  have hnb : fab.box.contains ⟨p.x + 1, p.y, p.z⟩ = true ∧
      fab.box.contains ⟨p.x - 1, p.y, p.z⟩ = true ∧
      fab.box.contains ⟨p.x, p.y + 1, p.z⟩ = true ∧
      fab.box.contains ⟨p.x, p.y - 1, p.z⟩ = true ∧
      fab.box.contains ⟨p.x, p.y, p.z + 1⟩ = true ∧
      fab.box.contains ⟨p.x, p.y, p.z - 1⟩ = true := by
    unfold haloLimited at hhalo
    simp only [Bool.not_eq_false', Bool.and_eq_true] at hhalo
    tauto
  obtain ⟨n1, n2, n3, n4, n5, n6⟩ := hnb
  unfold computeE
  rw [hbx, hfab]
  simp only [warpx_compute_E, hp, hhalo, if_true, Bool.false_eq_true, if_false]
  simp only [centredDifference, hdata, hphi _ n1, hphi _ n2, hphi _ n3, hphi _ n4, hphi _ n5,
    hphi _ n6]
  congr 1
  refine Prod.ext ?_ (Prod.ext ?_ ?_)
  · show 1 / (2 * dx) * _ = a
    push_cast
    field_simp
    ring
  · show 1 / (2 * dy) * _ = b
    push_cast
    field_simp
    ring
  · show 1 / (2 * dz) * _ = c
    push_cast
    field_simp
    ring

/-- C9 at the centre node of the box `[0,2]^3`. -/
theorem C9_stencil_linear_witness :
    computeE 0 stencilSample (1 / 2, 1 / 2, 1 / 2) (fun _ _ => (0, 0, 0)) 0 ⟨1, 1, 1⟩
      = some (3, 5, 7) :=
  C9_stencil_linear 3 5 7 0 0 0 (1 / 2) (1 / 2) (1 / 2) (by norm_num) (by norm_num)
    (by norm_num) 0 stencilSample (fun _ _ => (0, 0, 0)) 0
    ⟨⟨0, 0, 0⟩, ⟨2, 2, 2⟩, IndexType.TheNodeType⟩
    ⟨⟨⟨0, 0, 0⟩, ⟨2, 2, 2⟩, IndexType.TheNodeType⟩, 1, stencilSample.fab 0⟩ ⟨1, 1, 1⟩ rfl
    (by simp [MultiFab.get, MultiFab.fabbox, stencilSample, Box.grow])
    (fun _ _ => rfl) (by decide) (by decide)

/-! ## C10: the order of calls in `InitData` -/

end WarpX
